import Mathlib

/-!
# Verification of the QAMModem constellation codec, channel model and estimator

Shallow embedding of the QAM simulator's core components:

* the constellation tables built by the two modulator variants
  (`ModulatorQAM<Levels,T>` and the runtime-dispatch `ModulatorQAM`) and the
  two demodulator variants (`DemodulatorQAM<Levels,T>` and the runtime
  `DemodulatorQAM`);
* `modulate`, `demodulate_hard` and `demodulate_soft`;
* the AWGN `NoiseAdder` (scalar path);
* the Monte-Carlo estimator's atomic accumulators.

Symbol coordinates are embedded as rationals: every constellation coordinate
is a small integer times the scale factor, exactly representable both in
`float` and in `ℚ`, and the distance comparisons the code performs on them
are reproduced exactly.  The AWGN noise level computation, which genuinely
uses `pow`/`sqrt` on doubles, is embedded over `ℝ`.
-/

/-- Fuel-bounded helper for the iterative Gray-to-binary loop; the fuel is
only a structural-recursion device, `g` itself is always enough fuel since
the loop halves `g` each iteration. -/
def fromGrayAux (fuel : Nat) (g : Nat) : Nat :=
  match fuel with
  | 0 => 0
  | f + 1 => if g = 0 then 0 else g ^^^ fromGrayAux f (g / 2)

/-- Iterative Gray-to-binary decoder, from
`DemodulatorQAM<Levels,T>::from_gray`:
`int b = 0; for (; g; g >>= 1) b ^= g; return b;`. -/
def from_gray (g : Nat) : Nat := fromGrayAux g g

/-- PAM level table for 16-QAM: `{-3, -1, 1, 3}`. -/
def pam16 : List ℚ := [-3, -1, 1, 3]

/-- PAM level table for 64-QAM: `{-7, -5, -3, -1, 1, 3, 5, 7}`. -/
def pam64 : List ℚ := [-7, -5, -3, -1, 1, 3, 5, 7]

/-- The hand-enumerated QPSK constellation `{(1,1), (-1,1), (-1,-1), (1,-1)}`
shared verbatim by all four constellation generators. -/
def qpskTable : List (ℚ × ℚ) := [(1, 1), (-1, 1), (-1, -1), (1, -1)]

/-- Constellation of the templated demodulator,
`DemodulatorQAM<Levels,T>::generateConstellation`, with scale factor `s`.
Order 4 is the QPSK list (that branch does not apply the scale factor);
order 16 applies the single XOR `u ^^^ (u >>> 1)` to each 2-bit half of the
index; order 64 applies the iterative `from_gray` to each 3-bit half. -/
def demT_constellation (L : Nat) (s : ℚ) : List (ℚ × ℚ) :=
  if L = 4 then qpskTable
  else if L = 16 then
    (List.range 16).map (fun idx =>
      (pam16.getD (((idx >>> 2) &&& 3) ^^^ (((idx >>> 2) &&& 3) >>> 1)) 0 * s,
       pam16.getD ((idx &&& 3) ^^^ ((idx &&& 3) >>> 1)) 0 * s))
  else
    (List.range 64).map (fun idx =>
      (pam64.getD (from_gray ((idx >>> 3) &&& 7)) 0 * s,
       pam64.getD (from_gray (idx &&& 7)) 0 * s))

/-- The common constellation-generation loops of the runtime
`ModulatorQAM::generateConstellation` and the runtime
`DemodulatorQAM::generateConstellation` (the two loop bodies are identical):
each half of the index is mapped through the single XOR `v ^^^ (v >>> 1)` and
used to index the PAM table.  The half width is `bits_per_symbol_ / 2`
(2 for order 16, 3 for order 64). -/
def runtimeRawConstellation (L : Nat) : List (ℚ × ℚ) :=
  if L = 4 then qpskTable
  else if L = 16 then
    (List.range 16).map (fun idx =>
      (pam16.getD ((idx >>> 2) ^^^ ((idx >>> 2) >>> 1)) 0,
       pam16.getD ((idx &&& 3) ^^^ ((idx &&& 3) >>> 1)) 0))
  else
    (List.range 64).map (fun idx =>
      (pam64.getD ((idx >>> 3) ^^^ ((idx >>> 3) >>> 1)) 0,
       pam64.getD ((idx &&& 7) ^^^ ((idx &&& 7) >>> 1)) 0))

/-- Constellation of the runtime `DemodulatorQAM` (it takes no scale factor). -/
def demR_constellation (L : Nat) : List (ℚ × ℚ) := runtimeRawConstellation L

/-- Constellation of the runtime `ModulatorQAM` with scale factor `s`: the
same generation loops as the runtime demodulator, followed by the loop that
multiplies every point (including the QPSK ones) by `scale_factor_`. -/
def modR_constellation (L : Nat) (s : ℚ) : List (ℚ × ℚ) :=
  (runtimeRawConstellation L).map (fun p => (p.1 * s, p.2 * s))

/-- Constellation of the templated `ModulatorQAM<Levels,T>`: QPSK is the
hand-enumerated list; orders 16 and 64 are plain rasters
`for (i = -3; i <= 3; i += 2) for (j = -3; j <= 3; j += 2) emplace(i, j)`
(the outer loop drives the real part), with no Gray mapping.  All points,
including QPSK, are then multiplied by `scale_factor_`. -/
def modT_constellation (L : Nat) (s : ℚ) : List (ℚ × ℚ) :=
  (if L = 4 then qpskTable
   else if L = 16 then
     (List.range 4).flatMap (fun a =>
       (List.range 4).map (fun b => ((2 * (a : ℚ) - 3, 2 * (b : ℚ) - 3) : ℚ × ℚ)))
   else
     (List.range 8).flatMap (fun a =>
       (List.range 8).map (fun b => ((2 * (a : ℚ) - 7, 2 * (b : ℚ) - 7) : ℚ × ℚ)))).map
    (fun p => (p.1 * s, p.2 * s))

/-- Bit-group to index accumulation, from both modulators' inner loop
`index = (index << 1) | bits[i * BitsPerSymbol + j]`. -/
def bitsToIndex (chunk : List Nat) : Nat :=
  chunk.foldl (fun acc b => (acc <<< 1) ||| b) 0

/-- `modulate`, shared body of `ModulatorQAM<Levels,T>::modulate` and the
runtime `ModulatorQAM::modulate`: reject bit counts that are not a multiple
of `BitsPerSymbol`, otherwise map symbol slot `i` to the constellation point
indexed by the MSB-first accumulation of its bit group. -/
def modulate (table : List (ℚ × ℚ)) (bps : Nat) (bits : List Nat) :
    Except String (List (ℚ × ℚ)) :=
  if bits.length % bps ≠ 0 then .error "InvalidBitCount"
  else .ok ((List.range (bits.length / bps)).map (fun i =>
    table.getD (bitsToIndex ((bits.drop (i * bps)).take bps)) (0, 0)))

/-- Squared Euclidean distance, from `distance_squared` /
the inline `dr * dr + di * di` of the runtime demodulator. -/
def distance_squared (a b : ℚ × ℚ) : ℚ :=
  (a.1 - b.1) * (a.1 - b.1) + (a.2 - b.2) * (a.2 - b.2)

/-- One step of the nearest-point search of `demodulate_hard`: the best
distance starts at infinity (`none`) and is replaced only on strictly
smaller distance, indices visited in ascending order. -/
def demodStep (table : List (ℚ × ℚ)) (s : ℚ × ℚ) (acc : Nat × Option ℚ)
    (idx : Nat) : Nat × Option ℚ :=
  match acc.2 with
  | none => (idx, some (distance_squared s (table.getD idx (0, 0))))
  | some d =>
    if distance_squared s (table.getD idx (0, 0)) < d then
      (idx, some (distance_squared s (table.getD idx (0, 0))))
    else acc

/-- Index of the constellation point nearest to `s`, from the search loop of
`demodulate_hard` (`best_dist_sq = infinity; for (idx = 0; ...)`). -/
def nearestIndex (table : List (ℚ × ℚ)) (s : ℚ × ℚ) : Nat :=
  ((List.range table.length).foldl (demodStep table s) (0, none)).1

/-- Bit pattern of constellation index `i`, from `generateBitPatterns`:
`bit_patterns_[i][j] = (i >> (bits_per_symbol_ - 1 - j)) & 1`. -/
def bitPattern (bps i : Nat) : List Nat :=
  (List.range bps).map (fun j => (i >>> (bps - 1 - j)) &&& 1)

/-- `demodulate_hard` (both demodulator variants perform the same search):
for each symbol append the bit pattern of the nearest constellation index. -/
def demodulate_hard (table : List (ℚ × ℚ)) (bps : Nat)
    (symbols : List (ℚ × ℚ)) : List Nat :=
  symbols.flatMap (fun s => bitPattern bps (nearestIndex table s))

/-- One step of the per-bit minimum tracking in
`DemodulatorQAM<Levels,T>::demodulate_soft`: `min_dist0`/`min_dist1` start at
`INFINITY` (`none`) and are lowered on strictly smaller distance. -/
def softStep (table : List (ℚ × ℚ)) (bps : Nat) (s : ℚ × ℚ) (j : Nat)
    (acc : Option ℚ × Option ℚ) (idx : Nat) : Option ℚ × Option ℚ :=
  if (idx >>> (bps - 1 - j)) &&& 1 = 1 then
    match acc.2 with
    | none => (acc.1, some (distance_squared s (table.getD idx (0, 0))))
    | some d1 =>
      if distance_squared s (table.getD idx (0, 0)) < d1 then
        (acc.1, some (distance_squared s (table.getD idx (0, 0))))
      else acc
  else
    match acc.1 with
    | none => (some (distance_squared s (table.getD idx (0, 0))), acc.2)
    | some d0 =>
      if distance_squared s (table.getD idx (0, 0)) < d0 then
        (some (distance_squared s (table.getD idx (0, 0))), acc.2)
      else acc

/-- The two per-bit minima of `demodulate_soft` for one symbol and one bit
position. -/
def softMins (table : List (ℚ × ℚ)) (bps : Nat) (s : ℚ × ℚ) (j : Nat) :
    Option ℚ × Option ℚ :=
  (List.range table.length).foldl (softStep table bps s j) (none, none)

/-- `DemodulatorQAM<Levels,T>::demodulate_soft`: per symbol and bit position
emit `(min_dist0 - min_dist1) / (2 * sigma * sigma)`.  The fallback value `0`
stands for the `INFINITY` arithmetic the C++ would perform when a bit class
is empty; for the program's tables every class is non-empty (proved below),
so the fallback is never taken. -/
def demodulate_soft (table : List (ℚ × ℚ)) (bps : Nat)
    (symbols : List (ℚ × ℚ)) (sigma : ℚ) : List ℚ :=
  symbols.flatMap (fun s =>
    (List.range bps).map (fun j =>
      match softMins table bps s j with
      | (some d0, some d1) => (d0 - d1) / (2 * (sigma * sigma))
      | _ => 0))

example : from_gray 7 = 5 := by decide
example : from_gray 4 = 7 := by decide
example : bitsToIndex [1, 0, 1, 1] = 11 := by decide
example : bitPattern 4 11 = [1, 0, 1, 1] := by decide

/-! ## List and bit utilities -/

lemma getD_map_range {α : Type} (n : Nat) (f : Nat → α) (i : Nat) (hi : i < n) (d : α) :
    ((List.range n).map f).getD i d = f i := by
  rw [List.getD_eq_getElem _ _ (by simpa using hi)]
  simp

lemma two_mul_or_bit (a b : Nat) (hb : b ≤ 1) : 2 * a ||| b = 2 * a + b := by
  interval_cases b
  · simp
  · apply Nat.eq_of_testBit_eq
    intro i
    rw [Nat.testBit_lor]
    rcases i with _ | n
    · simp [Nat.testBit_zero]
      omega
    · simp [Nat.testBit_add_one]
      congr 1
      omega

lemma shiftLeft_or_bit (a b : Nat) (hb : b ≤ 1) : (a <<< 1) ||| b = 2 * a + b := by
  rw [Nat.shiftLeft_eq, pow_one, Nat.mul_comm a 2, two_mul_or_bit a b hb]

/-- The spec-side MSB-first binary value of a bit group: the head bit weighs
`2 ^ (length of the rest)`. -/
def msbIndex : List Nat → Nat
  | [] => 0
  | b :: rest => b * 2 ^ rest.length + msbIndex rest

lemma bitsToIndex_go (l : List Nat) (hl : ∀ x ∈ l, x ≤ 1) :
    ∀ a : Nat, l.foldl (fun acc b => (acc <<< 1) ||| b) a =
      a * 2 ^ l.length + l.foldl (fun acc b => (acc <<< 1) ||| b) 0 := by
  induction l with
  | nil => simp
  | cons x xs ih =>
    intro a
    have hx : x ≤ 1 := hl x (by simp)
    have hxs : ∀ y ∈ xs, y ≤ 1 := fun y hy => hl y (by simp [hy])
    simp only [List.foldl_cons]
    rw [ih hxs ((a <<< 1) ||| x), ih hxs ((0 <<< 1) ||| x),
      shiftLeft_or_bit a x hx, shiftLeft_or_bit 0 x hx]
    simp [List.length_cons, pow_succ]
    ring

lemma bitsToIndex_cons (b : Nat) (l : List Nat) (hb : b ≤ 1) (hl : ∀ x ∈ l, x ≤ 1) :
    bitsToIndex (b :: l) = b * 2 ^ l.length + bitsToIndex l := by
  unfold bitsToIndex
  simp only [List.foldl_cons]
  rw [bitsToIndex_go l hl ((0 <<< 1) ||| b), shiftLeft_or_bit 0 b hb]
  ring_nf

lemma bitsToIndex_eq_msbIndex (l : List Nat) (hl : ∀ x ∈ l, x ≤ 1) :
    bitsToIndex l = msbIndex l := by
  induction l with
  | nil => rfl
  | cons x xs ih =>
    rw [bitsToIndex_cons x xs (hl x (by simp)) (fun y hy => hl y (by simp [hy])),
      msbIndex, ih (fun y hy => hl y (by simp [hy]))]

lemma msbIndex_lt (l : List Nat) (hl : ∀ x ∈ l, x ≤ 1) :
    msbIndex l < 2 ^ l.length := by
  induction l with
  | nil => simp [msbIndex]
  | cons x xs ih =>
    have hx : x ≤ 1 := hl x (by simp)
    have := ih (fun y hy => hl y (by simp [hy]))
    simp only [msbIndex, List.length_cons, pow_succ]
    nlinarith

lemma bitsToIndex_lt (l : List Nat) (hl : ∀ x ∈ l, x ≤ 1) :
    bitsToIndex l < 2 ^ l.length := by
  rw [bitsToIndex_eq_msbIndex l hl]
  exact msbIndex_lt l hl

lemma shiftRight_and_one_add_high (b r n k : Nat) (hk : k < n) :
    ((b * 2 ^ n + r) >>> k) &&& 1 = (r >>> k) &&& 1 := by
  rw [Nat.shiftRight_eq_div_pow, Nat.shiftRight_eq_div_pow,
    Nat.and_one_is_mod, Nat.and_one_is_mod]
  have h1 : 2 ^ n = 2 ^ (n - k) * 2 ^ k := by
    rw [← pow_add]
    congr 1
    omega
  have h2 : (b * 2 ^ n + r) / 2 ^ k = b * 2 ^ (n - k) + r / 2 ^ k := by
    rw [h1, ← Nat.mul_assoc, Nat.add_comm,
      Nat.add_mul_div_right _ _ (by positivity : (0:ℕ) < 2 ^ k)]
    omega
  rw [h2]
  have h3 : b * 2 ^ (n - k) = 2 * (b * 2 ^ (n - k - 1)) := by
    have : 2 ^ (n - k) = 2 * 2 ^ (n - k - 1) := by
      rw [← pow_succ']
      congr 1
      omega
    rw [this]
    ring
  rw [h3]
  omega

lemma bitPattern_msbIndex (l : List Nat) (hl : ∀ x ∈ l, x ≤ 1) :
    bitPattern l.length (msbIndex l) = l := by
  induction l with
  | nil => rfl
  | cons b rest ih =>
    have hb : b ≤ 1 := hl b (by simp)
    have hrest : ∀ x ∈ rest, x ≤ 1 := fun y hy => hl y (by simp [hy])
    have hrlt : msbIndex rest < 2 ^ rest.length := msbIndex_lt rest hrest
    show bitPattern (rest.length + 1) (b * 2 ^ rest.length + msbIndex rest) = b :: rest
    unfold bitPattern
    rw [List.range_succ_eq_map, List.map_cons, List.map_map]
    congr 1
    · have harg : rest.length + 1 - 1 - 0 = rest.length := by omega
      rw [harg, Nat.shiftRight_eq_div_pow, Nat.and_one_is_mod]
      have hdiv : (b * 2 ^ rest.length + msbIndex rest) / 2 ^ rest.length = b := by
        rw [Nat.mul_comm, Nat.mul_add_div (by positivity)]
        rw [Nat.div_eq_of_lt hrlt]
        omega
      rw [hdiv]
      omega
    · conv_rhs => rw [← ih hrest]
      unfold bitPattern
      apply List.map_congr_left
      intro j hj
      rw [List.mem_range] at hj
      simp only [Function.comp]
      have harg : rest.length + 1 - 1 - (j + 1) = rest.length - 1 - j := by omega
      rw [harg]
      exact shiftRight_and_one_add_high b (msbIndex rest) rest.length
        (rest.length - 1 - j) (by omega)

/-! ## Nearest-point search characterization -/

lemma distance_squared_nonneg (a b : ℚ × ℚ) : 0 ≤ distance_squared a b := by
  unfold distance_squared
  exact add_nonneg (mul_self_nonneg _) (mul_self_nonneg _)

lemma distance_squared_self (a : ℚ × ℚ) : distance_squared a a = 0 := by
  unfold distance_squared
  ring

lemma distance_squared_eq_zero (a b : ℚ × ℚ) (h : distance_squared a b = 0) :
    a = b := by
  unfold distance_squared at h
  have h1 : a.1 = b.1 := by nlinarith [sq_nonneg (a.1 - b.1), sq_nonneg (a.2 - b.2)]
  have h2 : a.2 = b.2 := by nlinarith [sq_nonneg (a.1 - b.1), sq_nonneg (a.2 - b.2)]
  exact Prod.ext h1 h2

lemma demodStep_none (table : List (ℚ × ℚ)) (s : ℚ × ℚ) (r idx : Nat) :
    demodStep table s (r, none) idx =
      (idx, some (distance_squared s (table.getD idx (0, 0)))) := rfl

lemma demodStep_some (table : List (ℚ × ℚ)) (s : ℚ × ℚ) (r idx : Nat) (d : ℚ) :
    demodStep table s (r, some d) idx =
      if distance_squared s (table.getD idx (0, 0)) < d then
        (idx, some (distance_squared s (table.getD idx (0, 0))))
      else (r, some d) := rfl

lemma demodFold_spec (table : List (ℚ × ℚ)) (s : ℚ × ℚ) :
    ∀ n : Nat, 0 < n →
      ∃ r d, (List.range n).foldl (demodStep table s) (0, none) = (r, some d) ∧
        r < n ∧ d = distance_squared s (table.getD r (0, 0)) ∧
        (∀ i < n, d ≤ distance_squared s (table.getD i (0, 0))) ∧
        (∀ i < r, d < distance_squared s (table.getD i (0, 0))) := by
  intro n hn
  induction n with
  | zero => omega
  | succ m ih =>
    rcases Nat.eq_zero_or_pos m with hm | hm
    · subst hm
      refine ⟨0, distance_squared s (table.getD 0 (0, 0)), ?_, by omega, rfl, ?_, ?_⟩
      · have h1 : List.range 1 = [0] := rfl
        rw [h1, List.foldl_cons, List.foldl_nil, demodStep_none]
      · intro i hi
        have : i = 0 := by omega
        subst this
        exact le_refl _
      · intro i hi
        omega
    · obtain ⟨r, d, hfold, hr, hd, hmin, hfirst⟩ := ih hm
      rw [List.range_succ, List.foldl_append, hfold]
      rw [List.foldl_cons, List.foldl_nil, demodStep_some]
      by_cases hlt : distance_squared s (table.getD m (0, 0)) < d
      · rw [if_pos hlt]
        refine ⟨m, distance_squared s (table.getD m (0, 0)), rfl, by omega, rfl, ?_, ?_⟩
        · intro i hi
          rcases Nat.lt_succ_iff_lt_or_eq.1 hi with h | h
          · exact le_of_lt (lt_of_lt_of_le hlt (hmin i h))
          · subst h
            exact le_refl _
        · intro i hi
          exact lt_of_lt_of_le hlt (hmin i (by omega))
      · rw [if_neg hlt]
        refine ⟨r, d, rfl, by omega, hd, ?_, hfirst⟩
        intro i hi
        rcases Nat.lt_succ_iff_lt_or_eq.1 hi with h | h
        · exact hmin i h
        · subst h
          exact le_of_not_lt hlt

lemma nearestIndex_spec (table : List (ℚ × ℚ)) (s : ℚ × ℚ)
    (h : 0 < table.length) :
    nearestIndex table s < table.length ∧
    (∀ i < table.length,
      distance_squared s (table.getD (nearestIndex table s) (0, 0)) ≤
        distance_squared s (table.getD i (0, 0))) ∧
    (∀ i < nearestIndex table s,
      distance_squared s (table.getD (nearestIndex table s) (0, 0)) <
        distance_squared s (table.getD i (0, 0))) := by
  obtain ⟨r, d, hfold, hr, hd, hmin, hfirst⟩ := demodFold_spec table s table.length h
  have hres : nearestIndex table s = r := by
    unfold nearestIndex
    rw [hfold]
  rw [hres, ← hd] at *
  exact ⟨hr, hmin, hfirst⟩

lemma getD_inj_of_nodup (l : List (ℚ × ℚ)) (hnd : l.Nodup) (i j : Nat)
    (hi : i < l.length) (hj : j < l.length)
    (h : l.getD i (0, 0) = l.getD j (0, 0)) : i = j := by
  rw [List.getD_eq_getElem _ _ hi, List.getD_eq_getElem _ _ hj] at h
  exact (List.Nodup.getElem_inj_iff hnd).1 h

lemma nearestIndex_table_point (table : List (ℚ × ℚ)) (hnd : table.Nodup)
    (k : Nat) (hk : k < table.length) :
    nearestIndex table (table.getD k (0, 0)) = k := by
  obtain ⟨hr, hmin, _⟩ := nearestIndex_spec table (table.getD k (0, 0)) (by omega)
  set r := nearestIndex table (table.getD k (0, 0)) with hrdef
  have hle : distance_squared (table.getD k (0, 0)) (table.getD r (0, 0)) ≤ 0 := by
    have := hmin k hk
    rwa [distance_squared_self] at this
  have hz : distance_squared (table.getD k (0, 0)) (table.getD r (0, 0)) = 0 :=
    le_antisymm hle (distance_squared_nonneg _ _)
  exact (getD_inj_of_nodup table hnd k r hk hr
    (distance_squared_eq_zero _ _ hz)).symm

/-! ## No-duplicate proofs for the program's constellation tables -/

lemma nodup_map_range {α : Type} (n : Nat) (f : Nat → α)
    (hinj : ∀ i < n, ∀ j < n, f i = f j → i = j) :
    ((List.range n).map f).Nodup := by
  refine List.Nodup.map_on ?_ (List.nodup_range n)
  intro i hi j hj h
  rw [List.mem_range] at hi hj
  exact hinj i hi j hj h

lemma pam_getD_inj (p : List ℚ) (hnd : p.Nodup) (a b : Nat)
    (ha : a < p.length) (hb : b < p.length)
    (h : p.getD a 0 = p.getD b 0) : a = b := by
  rw [List.getD_eq_getElem _ _ ha, List.getD_eq_getElem _ _ hb] at h
  exact (List.Nodup.getElem_inj_iff hnd).1 h

lemma pam16_nodup : pam16.Nodup := by decide

lemma pam64_nodup : pam64.Nodup := by decide

lemma qpskTable_nodup : qpskTable.Nodup := by decide

lemma map_scale_one (l : List (ℚ × ℚ)) : l.map (fun p => (p.1 * 1, p.2 * 1)) = l := by
  induction l with
  | nil => rfl
  | cons x xs ih => simp [ih]

lemma modR_one (L : Nat) : modR_constellation L 1 = runtimeRawConstellation L :=
  map_scale_one _

lemma demT_four (s : ℚ) : demT_constellation 4 s = qpskTable := rfl

lemma modT_four_one : modT_constellation 4 1 = qpskTable := by
  show qpskTable.map (fun p => (p.1 * 1, p.2 * 1)) = qpskTable
  exact map_scale_one _

lemma raw4_eq : runtimeRawConstellation 4 = qpskTable := rfl

lemma raw16_eq : runtimeRawConstellation 16 = (List.range 16).map (fun idx =>
    (pam16.getD ((idx >>> 2) ^^^ ((idx >>> 2) >>> 1)) 0,
     pam16.getD ((idx &&& 3) ^^^ ((idx &&& 3) >>> 1)) 0)) := rfl

lemma raw64_eq : runtimeRawConstellation 64 = (List.range 64).map (fun idx =>
    (pam64.getD ((idx >>> 3) ^^^ ((idx >>> 3) >>> 1)) 0,
     pam64.getD ((idx &&& 7) ^^^ ((idx &&& 7) >>> 1)) 0)) := rfl

lemma demT16_eq (s : ℚ) : demT_constellation 16 s = (List.range 16).map (fun idx =>
    (pam16.getD (((idx >>> 2) &&& 3) ^^^ (((idx >>> 2) &&& 3) >>> 1)) 0 * s,
     pam16.getD ((idx &&& 3) ^^^ ((idx &&& 3) >>> 1)) 0 * s)) := rfl

lemma demT64_eq (s : ℚ) : demT_constellation 64 s = (List.range 64).map (fun idx =>
    (pam64.getD (from_gray ((idx >>> 3) &&& 7)) 0 * s,
     pam64.getD (from_gray (idx &&& 7)) 0 * s)) := rfl

lemma demT16_one : demT_constellation 16 1 = runtimeRawConstellation 16 := by
  rw [demT16_eq, raw16_eq]
  apply List.map_congr_left
  intro idx hidx
  rw [List.mem_range] at hidx
  interval_cases idx <;> simp only [mul_one] <;> rfl

lemma raw16_idx_lt : ∀ i < 16,
    (i >>> 2) ^^^ ((i >>> 2) >>> 1) < 4 ∧ (i &&& 3) ^^^ ((i &&& 3) >>> 1) < 4 := by
  decide

lemma raw16_idx_inj : ∀ i < 16, ∀ j < 16,
    (i >>> 2) ^^^ ((i >>> 2) >>> 1) = (j >>> 2) ^^^ ((j >>> 2) >>> 1) →
    (i &&& 3) ^^^ ((i &&& 3) >>> 1) = (j &&& 3) ^^^ ((j &&& 3) >>> 1) → i = j := by
  decide

lemma raw16_nodup : (runtimeRawConstellation 16).Nodup := by
  rw [raw16_eq]
  apply nodup_map_range
  intro i hi j hj h
  rw [Prod.mk.injEq] at h
  obtain ⟨h1, h2⟩ := h
  have b1 := raw16_idx_lt i hi
  have b2 := raw16_idx_lt j hj
  have e1 := pam_getD_inj pam16 pam16_nodup _ _ b1.1 b2.1 h1
  have e2 := pam_getD_inj pam16 pam16_nodup _ _ b1.2 b2.2 h2
  exact raw16_idx_inj i hi j hj e1 e2

lemma raw64_idx_lt : ∀ i < 64,
    (i >>> 3) ^^^ ((i >>> 3) >>> 1) < 8 ∧ (i &&& 7) ^^^ ((i &&& 7) >>> 1) < 8 := by
  decide

lemma raw64_idx_inj : ∀ i < 64, ∀ j < 64,
    (i >>> 3) ^^^ ((i >>> 3) >>> 1) = (j >>> 3) ^^^ ((j >>> 3) >>> 1) →
    (i &&& 7) ^^^ ((i &&& 7) >>> 1) = (j &&& 7) ^^^ ((j &&& 7) >>> 1) → i = j := by
  decide

lemma raw64_nodup : (runtimeRawConstellation 64).Nodup := by
  rw [raw64_eq]
  apply nodup_map_range
  intro i hi j hj h
  rw [Prod.mk.injEq] at h
  obtain ⟨h1, h2⟩ := h
  have b1 := raw64_idx_lt i hi
  have b2 := raw64_idx_lt j hj
  have e1 := pam_getD_inj pam64 pam64_nodup _ _ b1.1 b2.1 h1
  have e2 := pam_getD_inj pam64 pam64_nodup _ _ b1.2 b2.2 h2
  exact raw64_idx_inj i hi j hj e1 e2

lemma raw_length (L : Nat) (hL : L = 4 ∨ L = 16 ∨ L = 64) :
    (runtimeRawConstellation L).length = L := by
  rcases hL with h | h | h <;> subst h <;> rfl

/-! ## Modulation: chunk decomposition and round trip -/

/-- Chunked view of the modulator's per-symbol loop (proof device: slot `i`
of the loop consumes the `i`-th group of `bps` bits). -/
def chunkMod (table : List (ℚ × ℚ)) (bps : Nat) : Nat → List Nat → List (ℚ × ℚ)
  | 0, _ => []
  | n + 1, bits =>
    table.getD (bitsToIndex (bits.take bps)) (0, 0) ::
      chunkMod table bps n (bits.drop bps)

lemma modPayload_eq_chunkMod (table : List (ℚ × ℚ)) (bps : Nat) :
    ∀ n (bits : List Nat), bits.length = n * bps →
      (List.range n).map (fun i =>
        table.getD (bitsToIndex ((bits.drop (i * bps)).take bps)) (0, 0)) =
      chunkMod table bps n bits := by
  intro n
  induction n with
  | zero =>
    intro bits _
    rfl
  | succ m ih =>
    intro bits hlen
    rw [List.range_succ_eq_map, List.map_cons, List.map_map]
    show _ :: _ = _ :: _
    congr 1
    · rw [Nat.zero_mul, List.drop_zero]
    · rw [← ih (bits.drop bps) (by rw [List.length_drop, hlen, Nat.succ_mul]; omega)]
      apply List.map_congr_left
      intro i hi
      simp only [Function.comp]
      rw [List.drop_drop]
      have harg : Nat.succ i * bps = bps + i * bps := by
        rw [Nat.succ_mul]
        omega
      rw [harg]

lemma modulate_ok (table : List (ℚ × ℚ)) (bps : Nat) (bits : List Nat) (n : Nat)
    (hbps : 0 < bps) (hlen : bits.length = n * bps) :
    modulate table bps bits = .ok (chunkMod table bps n bits) := by
  unfold modulate
  rw [if_neg (by rw [hlen]; simp [Nat.mul_mod_left])]
  rw [hlen, Nat.mul_div_cancel n hbps]
  rw [modPayload_eq_chunkMod table bps n bits hlen]

lemma demod_chunkMod (tb_m tb_d : List (ℚ × ℚ)) (bps : Nat)
    (hmatch : ∀ k, k < 2 ^ bps → nearestIndex tb_d (tb_m.getD k (0, 0)) = k) :
    ∀ n (bits : List Nat), bits.length = n * bps → (∀ x ∈ bits, x ≤ 1) →
      demodulate_hard tb_d bps (chunkMod tb_m bps n bits) = bits := by
  intro n
  induction n with
  | zero =>
    intro bits hlen _
    have : bits = [] := List.eq_nil_of_length_eq_zero (by omega)
    subst this
    rfl
  | succ m ih =>
    intro bits hlen hb
    have hlenge : bps ≤ bits.length := by
      rw [hlen]
      exact Nat.le_mul_of_pos_left bps (by omega)
    have htake_len : (bits.take bps).length = bps := by
      rw [List.length_take]
      omega
    have htake_bits : ∀ x ∈ bits.take bps, x ≤ 1 :=
      fun x hx => hb x (List.mem_of_mem_take hx)
    have hdrop_bits : ∀ x ∈ bits.drop bps, x ≤ 1 :=
      fun x hx => hb x (List.mem_of_mem_drop hx)
    have hidx : bitsToIndex (bits.take bps) < 2 ^ bps := by
      have := bitsToIndex_lt (bits.take bps) htake_bits
      rwa [htake_len] at this
    have hpat : bitPattern bps (bitsToIndex (bits.take bps)) = bits.take bps := by
      have hp := bitPattern_msbIndex (bits.take bps) htake_bits
      rw [htake_len] at hp
      rw [bitsToIndex_eq_msbIndex _ htake_bits]
      exact hp
    show demodulate_hard tb_d bps (_ :: chunkMod tb_m bps m (bits.drop bps)) = bits
    unfold demodulate_hard
    rw [List.flatMap_cons]
    rw [hmatch _ hidx, hpat]
    have hrest : demodulate_hard tb_d bps (chunkMod tb_m bps m (bits.drop bps)) =
        bits.drop bps :=
      ih (bits.drop bps) (by rw [List.length_drop, hlen, Nat.succ_mul]; omega) hdrop_bits
    unfold demodulate_hard at hrest
    rw [hrest]
    exact List.take_append_drop bps bits

lemma roundtrip_pair (tb : List (ℚ × ℚ)) (bps : Nat) (hbps : 0 < bps)
    (hnd : tb.Nodup) (hlen2 : 2 ^ bps ≤ tb.length) (bits : List Nat)
    (hb : ∀ x ∈ bits, x ≤ 1) (hmod : bits.length % bps = 0) :
    (modulate tb bps bits).map (demodulate_hard tb bps) = .ok bits := by
  obtain ⟨n, hn⟩ : ∃ n, bits.length = n * bps :=
    ⟨bits.length / bps, (Nat.div_mul_cancel (Nat.dvd_of_mod_eq_zero hmod)).symm⟩
  rw [modulate_ok tb bps bits n hbps hn]
  show Except.ok (demodulate_hard tb bps (chunkMod tb bps n bits)) = _
  congr 1
  refine demod_chunkMod tb tb bps ?_ n bits hn hb
  intro k hk
  exact nearestIndex_table_point tb hnd k (by omega)

lemma qpsk_len : qpskTable.length = 4 := rfl

lemma raw16_len : (runtimeRawConstellation 16).length = 16 := by
  rw [raw16_eq]
  simp

lemma raw64_len : (runtimeRawConstellation 64).length = 64 := by
  rw [raw64_eq]
  simp

lemma raw4_nodup : (runtimeRawConstellation 4).Nodup := qpskTable_nodup

/-- **C1** (counterexample): for the templated modulator/demodulator pair
`ModulatorQAM<16,T>` / `DemodulatorQAM<16,T>` — the pair instantiated together
by `simulate_mod<M,T>` and by `main.cpp` — modulating the valid 16-QAM bit
batch `[0,0,1,0]` (with the default scale factor 1) and hard-demodulating the
result without noise yields `[0,0,1,1]`, not the original bits: the templated
modulator's raster constellation disagrees with the templated demodulator's
Gray-mapped constellation, so `demodulateHard(modulate(bits)) ≠ bits`. -/
theorem c1_roundtrip_counterexample :
    (modulate (modT_constellation 16 1) 4 [0, 0, 1, 0]).map
        (demodulate_hard (demT_constellation 16 1) 4) = Except.ok [0, 0, 1, 1] ∧
    (Except.ok [0, 0, 1, 1] : Except String (List Nat)) ≠ Except.ok [0, 0, 1, 0] := by
  constructor
  · have h1 : modulate (modT_constellation 16 1) 4 [0, 0, 1, 0] =
        .ok [(modT_constellation 16 1).getD 2 (0, 0)] := by
      rw [modulate_ok (modT_constellation 16 1) 4 [0, 0, 1, 0] 1 (by omega) rfl]
      rfl
    rw [h1]
    have hpoint : (modT_constellation 16 1).getD 2 (0, 0) =
        (demT_constellation 16 1).getD 3 (0, 0) := by
      rw [demT16_eq, getD_map_range 16 _ 3 (by omega)]
      norm_num [modT_constellation, pam16, show List.range 4 = [0, 1, 2, 3] from rfl,
        show ((3 : Nat) >>> 2 &&& 3) ^^^ (((3 : Nat) >>> 2 &&& 3) >>> 1) = 0 from rfl,
        show ((3 : Nat) &&& 3) ^^^ (((3 : Nat) &&& 3) >>> 1) = 2 from rfl,
        show (3 : Nat) ^^^ (3 : Nat) >>> 1 = 2 from rfl,
        show (0 : Nat) ^^^ (0 : Nat) >>> 1 = 0 from rfl]
    have hnd : (demT_constellation 16 1).Nodup := by
      rw [demT16_one]
      exact raw16_nodup
    have hlen : (demT_constellation 16 1).length = 16 := by
      rw [demT16_one]
      exact raw16_len
    have hnear : nearestIndex (demT_constellation 16 1)
        ((demT_constellation 16 1).getD 3 (0, 0)) = 3 :=
      nearestIndex_table_point _ hnd 3 (by omega)
    show Except.ok (demodulate_hard (demT_constellation 16 1) 4
      [(modT_constellation 16 1).getD 2 (0, 0)]) = _
    rw [hpoint]
    unfold demodulate_hard
    rw [List.flatMap_cons, hnear]
    rfl
  · intro h
    exact absurd (Except.ok.inj h) (by decide)

/-- **C1** (amended): the round-trip property `demodulateHard(modulate(bits))
= bits` holds, for every valid 0/1 bit batch, for the runtime
modulator/demodulator pair (the pair wired together in
`src/src/pipeline/qam_simulator.cpp`) at all three orders 4, 16 and 64, and
for the templated pair at order 4; at orders 16 and 64 the templated pair
fails it (see the counterexample). -/
theorem c1_roundtrip_amended (bits : List Nat) (hb : ∀ x ∈ bits, x ≤ 1) :
    (bits.length % 2 = 0 →
      (modulate (modR_constellation 4 1) 2 bits).map
        (demodulate_hard (demR_constellation 4) 2) = .ok bits) ∧
    (bits.length % 4 = 0 →
      (modulate (modR_constellation 16 1) 4 bits).map
        (demodulate_hard (demR_constellation 16) 4) = .ok bits) ∧
    (bits.length % 6 = 0 →
      (modulate (modR_constellation 64 1) 6 bits).map
        (demodulate_hard (demR_constellation 64) 6) = .ok bits) ∧
    (bits.length % 2 = 0 →
      (modulate (modT_constellation 4 1) 2 bits).map
        (demodulate_hard (demT_constellation 4 1) 2) = .ok bits) := by
  refine ⟨fun h => ?_, fun h => ?_, fun h => ?_, fun h => ?_⟩
  · rw [modR_one]
    show (modulate (runtimeRawConstellation 4) 2 bits).map
      (demodulate_hard (runtimeRawConstellation 4) 2) = _
    exact roundtrip_pair _ 2 (by omega) raw4_nodup (by rw [raw4_eq, qpsk_len]; decide) bits hb h
  · rw [modR_one]
    show (modulate (runtimeRawConstellation 16) 4 bits).map
      (demodulate_hard (runtimeRawConstellation 16) 4) = _
    exact roundtrip_pair _ 4 (by omega) raw16_nodup (by rw [raw16_len]; decide) bits hb h
  · rw [modR_one]
    show (modulate (runtimeRawConstellation 64) 6 bits).map
      (demodulate_hard (runtimeRawConstellation 64) 6) = _
    exact roundtrip_pair _ 6 (by omega) raw64_nodup (by rw [raw64_len]; decide) bits hb h
  · rw [modT_four_one, demT_four]
    exact roundtrip_pair qpskTable 2 (by omega) qpskTable_nodup
      (by rw [qpsk_len]; decide) bits hb h

/-- Witness for `c1_roundtrip_amended` at the concrete batch `[0,1,1,0,1,0]`
(a valid batch for all three orders). -/
theorem c1_roundtrip_amended_witness :
    (modulate (modR_constellation 64 1) 6 [0, 1, 1, 0, 1, 0]).map
      (demodulate_hard (demR_constellation 64) 6) = .ok [0, 1, 1, 0, 1, 0] :=
  (c1_roundtrip_amended [0, 1, 1, 0, 1, 0] (by decide)).2.2.1 (by decide)

/-- The six modulator instantiations the program constructs (templated and
runtime, orders 4, 16, 64) with their `BitsPerSymbol`, at scale factor `s`. -/
def modulatorTables (s : ℚ) : List (List (ℚ × ℚ) × Nat) :=
  [(modT_constellation 4 s, 2), (modT_constellation 16 s, 4),
   (modT_constellation 64 s, 6), (modR_constellation 4 s, 2),
   (modR_constellation 16 s, 4), (modR_constellation 64 s, 6)]

lemma modulatorTables_bps_pos (s : ℚ) (tb : List (ℚ × ℚ)) (bps : Nat)
    (hmem : (tb, bps) ∈ modulatorTables s) : 0 < bps := by
  simp only [modulatorTables, List.mem_cons, List.not_mem_nil, or_false,
    Prod.mk.injEq] at hmem
  rcases hmem with ⟨_, h⟩ | ⟨_, h⟩ | ⟨_, h⟩ | ⟨_, h⟩ | ⟨_, h⟩ | ⟨_, h⟩ <;> omega

/-- **C5**: for all three orders (and both modulator variants, any scale
factor), `modulate` fails with `InvalidBitCount` exactly when the bit count
is not a multiple of `bitsPerSymbol`, and the empty bit batch yields the
empty symbol batch, not an error. -/
theorem c5_invalid_bit_count (s : ℚ) (tb : List (ℚ × ℚ)) (bps : Nat)
    (hmem : (tb, bps) ∈ modulatorTables s) (bits : List Nat) :
    (modulate tb bps bits = .error "InvalidBitCount" ↔ bits.length % bps ≠ 0) ∧
    modulate tb bps [] = .ok [] := by
  have hbps := modulatorTables_bps_pos s tb bps hmem
  constructor
  · constructor
    · intro h
      by_contra hmod
      unfold modulate at h
      rw [if_neg (by simp [hmod])] at h
      exact absurd h (by simp)
    · intro h
      unfold modulate
      rw [if_pos h]
  · unfold modulate
    rw [if_neg (by simp)]
    simp [Nat.zero_div]

/-- Witness for `c5_invalid_bit_count`: 16-QAM runtime modulator at scale 1,
three bits (not a multiple of 4). -/
theorem c5_invalid_bit_count_witness :
    modulate (modR_constellation 16 1) 4 [0, 1, 0] = .error "InvalidBitCount" ∧
    modulate (modR_constellation 16 1) 4 [] = .ok [] := by
  have h := c5_invalid_bit_count 1 (modR_constellation 16 1) 4
    (by simp [modulatorTables]) [0, 1, 0]
  exact ⟨h.1.2 (by decide), h.2⟩

/-- **C10**: for every 0/1 bit batch whose length is a nonzero multiple `n`
of `bitsPerSymbol`, `modulate` succeeds with exactly `n` symbols, the `k`-th
being the constellation point indexed by the MSB-first binary value of the
`k`-th group of `bitsPerSymbol` consecutive bits — so the `k`-th symbol
depends only on the `k`-th bit group.  Holds for both modulator variants and
all three orders. -/
theorem c10_modulate_structure (s : ℚ) (tb : List (ℚ × ℚ)) (bps : Nat)
    (hmem : (tb, bps) ∈ modulatorTables s) (bits : List Nat) (n : Nat)
    (hn : 0 < n) (hlen : bits.length = n * bps) (hb : ∀ x ∈ bits, x ≤ 1) :
    ∃ out, modulate tb bps bits = .ok out ∧ out.length = n ∧
      ∀ k, k < n → out.getD k (0, 0) =
        tb.getD (msbIndex ((bits.drop (k * bps)).take bps)) (0, 0) := by
  have hbps := modulatorTables_bps_pos s tb bps hmem
  refine ⟨(List.range n).map (fun i =>
    tb.getD (bitsToIndex ((bits.drop (i * bps)).take bps)) (0, 0)), ?_, by simp, ?_⟩
  · unfold modulate
    rw [if_neg (by rw [hlen]; simp [Nat.mul_mod_left])]
    rw [hlen, Nat.mul_div_cancel n hbps]
  · intro k hk
    rw [getD_map_range n _ k hk]
    congr 1
    apply bitsToIndex_eq_msbIndex
    intro x hx
    exact hb x (List.mem_of_mem_drop (List.mem_of_mem_take hx))

/-- Witness for `c10_modulate_structure`: runtime QPSK modulator, batch
`[1,0,0,1]`, two symbols. -/
theorem c10_modulate_structure_witness :
    ∃ out, modulate (modR_constellation 4 1) 2 [1, 0, 0, 1] = .ok out ∧
      out.length = 2 ∧
      ∀ k, k < 2 → out.getD k (0, 0) =
        (modR_constellation 4 1).getD
          (msbIndex (([1, 0, 0, 1].drop (k * 2)).take 2)) (0, 0) :=
  c10_modulate_structure 1 (modR_constellation 4 1) 2
    (by simp [modulatorTables]) [1, 0, 0, 1] 2 (by decide) (by decide) (by decide)

/-! ## C2: the Gray-decode construction rule -/

/-- The order-16 constellation mapping exactly as the specification words
it: split the 4-bit index into two 2-bit halves (upper half → horizontal
axis, lower half → vertical axis), Gray-decode each half with the iterative
rule, index the PAM table, scale by `scaleFactor`. -/
def specGrayConstellation16 (s : ℚ) : List (ℚ × ℚ) :=
  (List.range 16).map (fun idx =>
    (pam16.getD (from_gray (idx >>> 2)) 0 * s,
     pam16.getD (from_gray (idx % 4)) 0 * s))

/-- The order-64 constellation mapping exactly as the specification words
it (3-bit halves, PAM table `{-7..7}`). -/
def specGrayConstellation64 (s : ℚ) : List (ℚ × ℚ) :=
  (List.range 64).map (fun idx =>
    (pam64.getD (from_gray (idx >>> 3)) 0 * s,
     pam64.getD (from_gray (idx % 8)) 0 * s))

lemma gray16_idx : ∀ i < 16,
    ((i >>> 2) &&& 3) ^^^ (((i >>> 2) &&& 3) >>> 1) = from_gray (i >>> 2) ∧
    (i &&& 3) ^^^ ((i &&& 3) >>> 1) = from_gray (i % 4) ∧
    (i >>> 2) ^^^ ((i >>> 2) >>> 1) = from_gray (i >>> 2) := by
  decide

lemma gray64_idx : ∀ i < 64,
    from_gray ((i >>> 3) &&& 7) = from_gray (i >>> 3) ∧
    from_gray (i &&& 7) = from_gray (i % 8) := by
  decide

/-- **C2** (counterexample): the constellation the runtime demodulator
constructs for order 64 disagrees at index 56 with the constellation the
claim's rule (iterative Gray-decode of each half) produces: the code's
single XOR `7 ^^^ (7 >>> 1) = 4` differs from the iterative decode
`from_gray 7 = 5`, giving horizontal level 1 instead of 3. -/
theorem c2_gray_rule_counterexample :
    (demR_constellation 64).getD 56 (0, 0) = (1, -7) ∧
    (specGrayConstellation64 1).getD 56 (0, 0) = (3, -7) ∧
    ((1 : ℚ), (-7 : ℚ)) ≠ ((3 : ℚ), (-7 : ℚ)) := by
  refine ⟨?_, ?_, by decide⟩
  · show (runtimeRawConstellation 64).getD 56 (0, 0) = (1, -7)
    rw [raw64_eq, getD_map_range 64 _ 56 (by omega)]
    rfl
  · unfold specGrayConstellation64
    rw [getD_map_range 64 _ 56 (by omega)]
    norm_num [pam64, show from_gray (56 >>> 3) = 5 from rfl,
      show (56 : Nat) % 8 = 0 from rfl, show from_gray 0 = 0 from rfl]

/-- **C2** (amended): the claimed construction (split the index into equal
halves, iterative Gray-decode, PAM lookup, scale) holds for the templated
demodulator's order-16 and order-64 constellations at every scale factor,
and for the order-16 constellations of the runtime modulator and runtime
demodulator (whose single XOR coincides with the iterative rule on 2-bit
halves); the order-64 runtime constellations instead apply a single XOR
`v ^^^ (v >>> 1)` to each 3-bit half, and the templated modulator's 16/64
constellations are plain rasters with no Gray mapping at all. -/
theorem c2_gray_rule_amended (s : ℚ) :
    demT_constellation 16 s = specGrayConstellation16 s ∧
    demT_constellation 64 s = specGrayConstellation64 s ∧
    modR_constellation 16 s = specGrayConstellation16 s ∧
    demR_constellation 16 = specGrayConstellation16 1 := by
  refine ⟨?_, ?_, ?_, ?_⟩
  · rw [demT16_eq]
    unfold specGrayConstellation16
    apply List.map_congr_left
    intro i hi
    rw [List.mem_range] at hi
    obtain ⟨h1, h2, _⟩ := gray16_idx i hi
    rw [h1, h2]
  · rw [demT64_eq]
    unfold specGrayConstellation64
    apply List.map_congr_left
    intro i hi
    rw [List.mem_range] at hi
    obtain ⟨h1, h2⟩ := gray64_idx i hi
    rw [h1, h2]
  · unfold modR_constellation
    rw [raw16_eq, List.map_map]
    unfold specGrayConstellation16
    apply List.map_congr_left
    intro i hi
    rw [List.mem_range] at hi
    obtain ⟨_, h2, h3⟩ := gray16_idx i hi
    simp only [Function.comp]
    rw [h2, h3]
  · show runtimeRawConstellation 16 = _
    rw [raw16_eq]
    unfold specGrayConstellation16
    apply List.map_congr_left
    intro i hi
    rw [List.mem_range] at hi
    obtain ⟨_, h2, h3⟩ := gray16_idx i hi
    rw [h2, h3, mul_one, mul_one]

/-! ## C9: Gray-coding adjacency -/

/-- Two constellation points are nearest neighbors along one axis: adjacent
PAM levels (which differ by exactly 2 in the unscaled tables) on one axis,
identical coordinate on the other. -/
def isAxisNeighbor (p q : ℚ × ℚ) : Prop :=
  (p.1 = q.1 ∧ (p.2 - q.2 = 2 ∨ q.2 - p.2 = 2)) ∨
  (p.2 = q.2 ∧ (p.1 - q.1 = 2 ∨ q.1 - p.1 = 2))

/-- Number of positions at which the bit patterns of constellation indices
`i` and `k` disagree. -/
def patternDiff (bps i k : Nat) : Nat :=
  ((List.range bps).filter (fun j =>
    (bitPattern bps i).getD j 0 ≠ (bitPattern bps k).getD j 0)).length

lemma pam16_val : ∀ a < 4, pam16.getD a 0 = 2 * (a : ℚ) - 3 := by
  intro a ha
  interval_cases a <;> norm_num [pam16]

lemma pam64_val : ∀ a < 8, pam64.getD a 0 = 2 * (a : ℚ) - 7 := by
  intro a ha
  interval_cases a <;> norm_num [pam64]

lemma pamEq (c : ℚ) (a b : Nat) : 2 * (a : ℚ) - c = 2 * (b : ℚ) - c ↔ a = b := by
  constructor
  · intro h
    have : (a : ℚ) = b := by linarith
    exact_mod_cast this
  · rintro rfl
    rfl

lemma pamAdj (c : ℚ) (a b : Nat) :
    ((2 * (a : ℚ) - c) - (2 * (b : ℚ) - c) = 2 ∨
     (2 * (b : ℚ) - c) - (2 * (a : ℚ) - c) = 2) ↔ (a = b + 1 ∨ b = a + 1) := by
  constructor
  · rintro (h | h)
    · left
      have : (a : ℚ) = (b : ℚ) + 1 := by linarith
      exact_mod_cast this
    · right
      have : (b : ℚ) = (a : ℚ) + 1 := by linarith
      exact_mod_cast this
  · rintro (h | h)
    · left
      rw [h]
      push_cast
      ring
    · right
      rw [h]
      push_cast
      ring

lemma raw16_neighbor_decide : ∀ i < 16, ∀ k < 16,
    ((((i >>> 2) ^^^ ((i >>> 2) >>> 1) = (k >>> 2) ^^^ ((k >>> 2) >>> 1)) ∧
      ((i &&& 3) ^^^ ((i &&& 3) >>> 1) = ((k &&& 3) ^^^ ((k &&& 3) >>> 1)) + 1 ∨
       (k &&& 3) ^^^ ((k &&& 3) >>> 1) = ((i &&& 3) ^^^ ((i &&& 3) >>> 1)) + 1)) ∨
     (((i &&& 3) ^^^ ((i &&& 3) >>> 1) = (k &&& 3) ^^^ ((k &&& 3) >>> 1)) ∧
      ((i >>> 2) ^^^ ((i >>> 2) >>> 1) = ((k >>> 2) ^^^ ((k >>> 2) >>> 1)) + 1 ∨
       (k >>> 2) ^^^ ((k >>> 2) >>> 1) = ((i >>> 2) ^^^ ((i >>> 2) >>> 1)) + 1))) →
    patternDiff 4 i k = 1 := by
  decide

lemma raw16_adjacency (i k : Nat) (hi : i < 16) (hk : k < 16)
    (h : isAxisNeighbor ((runtimeRawConstellation 16).getD i (0, 0))
      ((runtimeRawConstellation 16).getD k (0, 0))) :
    patternDiff 4 i k = 1 := by
  rw [raw16_eq, getD_map_range 16 _ i hi, getD_map_range 16 _ k hk] at h
  unfold isAxisNeighbor at h
  dsimp only at h
  obtain ⟨bxi, byi⟩ := raw16_idx_lt i hi
  obtain ⟨bxk, byk⟩ := raw16_idx_lt k hk
  rw [pam16_val _ bxi, pam16_val _ byi, pam16_val _ bxk, pam16_val _ byk] at h
  rw [pamEq, pamAdj, pamEq, pamAdj] at h
  exact raw16_neighbor_decide i hi k hk h

lemma demT64_neighbor_decide : ∀ i < 64, ∀ k < 64,
    (((from_gray ((i >>> 3) &&& 7) = from_gray ((k >>> 3) &&& 7)) ∧
      (from_gray (i &&& 7) = from_gray (k &&& 7) + 1 ∨
       from_gray (k &&& 7) = from_gray (i &&& 7) + 1)) ∨
     ((from_gray (i &&& 7) = from_gray (k &&& 7)) ∧
      (from_gray ((i >>> 3) &&& 7) = from_gray ((k >>> 3) &&& 7) + 1 ∨
       from_gray ((k >>> 3) &&& 7) = from_gray ((i >>> 3) &&& 7) + 1))) →
    patternDiff 6 i k = 1 := by
  decide

lemma demT64_idx_lt : ∀ i < 64,
    from_gray ((i >>> 3) &&& 7) < 8 ∧ from_gray (i &&& 7) < 8 := by
  decide

lemma demT64_one : demT_constellation 64 1 = (List.range 64).map (fun idx =>
    (pam64.getD (from_gray ((idx >>> 3) &&& 7)) 0,
     pam64.getD (from_gray (idx &&& 7)) 0)) := by
  rw [demT64_eq]
  apply List.map_congr_left
  intro i _
  rw [mul_one, mul_one]

lemma demT64_adjacency (i k : Nat) (hi : i < 64) (hk : k < 64)
    (h : isAxisNeighbor ((demT_constellation 64 1).getD i (0, 0))
      ((demT_constellation 64 1).getD k (0, 0))) :
    patternDiff 6 i k = 1 := by
  rw [demT64_one, getD_map_range 64 _ i hi, getD_map_range 64 _ k hk] at h
  unfold isAxisNeighbor at h
  dsimp only at h
  obtain ⟨bxi, byi⟩ := demT64_idx_lt i hi
  obtain ⟨bxk, byk⟩ := demT64_idx_lt k hk
  rw [pam64_val _ bxi, pam64_val _ byi, pam64_val _ bxk, pam64_val _ byk] at h
  rw [pamEq, pamAdj, pamEq, pamAdj] at h
  exact demT64_neighbor_decide i hi k hk h

/-- **C9** (counterexample): in the 64-QAM constellation built by the
runtime demodulator (and runtime modulator, same loops), the points at
indices 16 and 56 are horizontal nearest neighbors — levels −1 and 1, same
vertical level −7 — but their bit patterns `010000` and `111000` differ in
two bits, not one. -/
theorem c9_adjacency_counterexample :
    isAxisNeighbor ((demR_constellation 64).getD 16 (0, 0))
      ((demR_constellation 64).getD 56 (0, 0)) ∧
    patternDiff 6 16 56 ≠ 1 := by
  constructor
  · have h16 : (demR_constellation 64).getD 16 (0, 0) = (-1, -7) := by
      show (runtimeRawConstellation 64).getD 16 (0, 0) = (-1, -7)
      rw [raw64_eq, getD_map_range 64 _ 16 (by omega)]
      rfl
    have h56 : (demR_constellation 64).getD 56 (0, 0) = (1, -7) := by
      show (runtimeRawConstellation 64).getD 56 (0, 0) = (1, -7)
      rw [raw64_eq, getD_map_range 64 _ 56 (by omega)]
      rfl
    rw [h16, h56]
    refine Or.inr ⟨rfl, Or.inr ?_⟩
    norm_num
  · decide

/-- **C9** (amended): axis nearest neighbors differ in exactly one bit in
the 16- and 64-QAM constellations of the templated demodulator and in the
16-QAM constellations of the runtime modulator/demodulator (scale factor 1,
as the program instantiates them); the 64-QAM runtime tables violate the
property (see the counterexample), as do the templated modulator's rasters. -/
theorem c9_adjacency_amended :
    (∀ i k, i < 16 → k < 16 →
      isAxisNeighbor ((demT_constellation 16 1).getD i (0, 0))
        ((demT_constellation 16 1).getD k (0, 0)) → patternDiff 4 i k = 1) ∧
    (∀ i k, i < 64 → k < 64 →
      isAxisNeighbor ((demT_constellation 64 1).getD i (0, 0))
        ((demT_constellation 64 1).getD k (0, 0)) → patternDiff 6 i k = 1) ∧
    (∀ i k, i < 16 → k < 16 →
      isAxisNeighbor ((demR_constellation 16).getD i (0, 0))
        ((demR_constellation 16).getD k (0, 0)) → patternDiff 4 i k = 1) ∧
    (∀ i k, i < 16 → k < 16 →
      isAxisNeighbor ((modR_constellation 16 1).getD i (0, 0))
        ((modR_constellation 16 1).getD k (0, 0)) → patternDiff 4 i k = 1) := by
  refine ⟨?_, ?_, ?_, ?_⟩
  · intro i k hi hk h
    rw [demT16_one] at h
    exact raw16_adjacency i k hi hk h
  · intro i k hi hk h
    exact demT64_adjacency i k hi hk h
  · intro i k hi hk h
    exact raw16_adjacency i k hi hk h
  · intro i k hi hk h
    rw [modR_one] at h
    exact raw16_adjacency i k hi hk h

/-- Witness for `c9_adjacency_amended`: indices 0 and 1 of the templated
16-QAM table are vertical neighbors and differ in one bit. -/
theorem c9_adjacency_amended_witness :
    isAxisNeighbor ((demT_constellation 16 1).getD 0 (0, 0))
      ((demT_constellation 16 1).getD 1 (0, 0)) ∧ patternDiff 4 0 1 = 1 := by
  have h : isAxisNeighbor ((demT_constellation 16 1).getD 0 (0, 0))
      ((demT_constellation 16 1).getD 1 (0, 0)) := by
    have h0 : (demT_constellation 16 1).getD 0 (0, 0) = (-3, -3) := by
      rw [demT16_one]
      show (runtimeRawConstellation 16).getD 0 (0, 0) = (-3, -3)
      rw [raw16_eq, getD_map_range 16 _ 0 (by omega)]
      rfl
    have h1 : (demT_constellation 16 1).getD 1 (0, 0) = (-3, -1) := by
      rw [demT16_one]
      show (runtimeRawConstellation 16).getD 1 (0, 0) = (-3, -1)
      rw [raw16_eq, getD_map_range 16 _ 1 (by omega)]
      rfl
    rw [h0, h1]
    refine Or.inl ⟨rfl, Or.inr ?_⟩
    norm_num
  exact ⟨h, (c9_adjacency_amended).1 0 1 (by omega) (by omega) h⟩

/-! ## C4: hard-decision demodulation -/

/-- The six demodulator instantiations the program constructs (templated
with scale factor `s`, and runtime) with their `BitsPerSymbol`. -/
def demodulatorTables (s : ℚ) : List (List (ℚ × ℚ) × Nat) :=
  [(demT_constellation 4 s, 2), (demT_constellation 16 s, 4),
   (demT_constellation 64 s, 6), (demR_constellation 4, 2),
   (demR_constellation 16, 4), (demR_constellation 64, 6)]

lemma demodulatorTables_length_pos (s : ℚ) (tb : List (ℚ × ℚ)) (bps : Nat)
    (hmem : (tb, bps) ∈ demodulatorTables s) : 0 < tb.length := by
  simp only [demodulatorTables, List.mem_cons, List.not_mem_nil, or_false,
    Prod.mk.injEq] at hmem
  rcases hmem with ⟨h, _⟩ | ⟨h, _⟩ | ⟨h, _⟩ | ⟨h, _⟩ | ⟨h, _⟩ | ⟨h, _⟩ <;> subst h
  · rw [demT_four]
    decide
  · rw [demT16_eq]
    simp
  · rw [demT64_eq]
    simp
  · show 0 < (runtimeRawConstellation 4).length
    rw [raw4_eq]
    decide
  · rw [show demR_constellation 16 = runtimeRawConstellation 16 from rfl, raw16_len]
    omega
  · rw [show demR_constellation 64 = runtimeRawConstellation 64 from rfl, raw64_len]
    omega

/-- **C4**: `demodulate_hard` maps the empty input to the empty bit batch
and every input symbol sequence to the concatenation, in input order, of
the bit pattern of the chosen index per symbol; the chosen index is in
range, minimizes the squared Euclidean distance to the symbol over the
whole constellation, and is the lowest such index (every strictly smaller
index is at strictly greater distance, because the search visits indices
in ascending order and replaces the best only on strictly smaller
distance).  Holds for both demodulator variants at all three orders. -/
theorem c4_demodulate_hard_spec (s : ℚ) (tb : List (ℚ × ℚ)) (bps : Nat)
    (hmem : (tb, bps) ∈ demodulatorTables s) (symbols : List (ℚ × ℚ)) :
    demodulate_hard tb bps [] = [] ∧
    demodulate_hard tb bps symbols =
      symbols.flatMap (fun sym => bitPattern bps (nearestIndex tb sym)) ∧
    ∀ sym : ℚ × ℚ,
      nearestIndex tb sym < tb.length ∧
      (∀ i < tb.length,
        distance_squared sym (tb.getD (nearestIndex tb sym) (0, 0)) ≤
          distance_squared sym (tb.getD i (0, 0))) ∧
      (∀ i < nearestIndex tb sym,
        distance_squared sym (tb.getD (nearestIndex tb sym) (0, 0)) <
          distance_squared sym (tb.getD i (0, 0))) := by
  refine ⟨rfl, rfl, fun sym => ?_⟩
  exact nearestIndex_spec tb sym (demodulatorTables_length_pos s tb bps hmem)

/-- Witness for `c4_demodulate_hard_spec`: runtime QPSK demodulator on the
symbol `(2, 2)`. -/
theorem c4_demodulate_hard_spec_witness :
    demodulate_hard (demR_constellation 4) 2 [] = [] ∧
    nearestIndex (demR_constellation 4) (2, 2) < (demR_constellation 4).length := by
  have h := c4_demodulate_hard_spec 1 (demR_constellation 4) 2
    (by simp [demodulatorTables]) []
  exact ⟨h.1, (h.2.2 (2, 2)).1⟩

/-! ## C8: soft-decision demodulation -/

/-- Squared distances from `sym` to the constellation points whose bit `j`
(MSB-first) equals `b`: the candidate set of the per-bit minima in the
specification's description of `demodulateSoft`. -/
def classDists (table : List (ℚ × ℚ)) (bps : Nat) (sym : ℚ × ℚ) (j b : Nat) :
    List ℚ :=
  ((List.range table.length).filter
      (fun idx => (idx >>> (bps - 1 - j)) &&& 1 = b)).map
    (fun idx => distance_squared sym (table.getD idx (0, 0)))

/-- Minimum of a list of rationals (`none` for the empty list); spec device
for the claim's "min over". -/
def listMin : List ℚ → Option ℚ
  | [] => none
  | x :: xs =>
    match listMin xs with
    | none => some x
    | some m => some (min x m)

lemma listMin_eq_none (l : List ℚ) (h : listMin l = none) : l = [] := by
  cases l with
  | nil => rfl
  | cons x xs =>
    exfalso
    unfold listMin at h
    cases hxs : listMin xs <;> rw [hxs] at h <;> simp at h

lemma listMin_spec (l : List ℚ) : l ≠ [] →
    ∃ d, listMin l = some d ∧ d ∈ l ∧ ∀ x ∈ l, d ≤ x := by
  induction l with
  | nil => intro h; exact absurd rfl h
  | cons x xs ih =>
    intro _
    cases hxs : listMin xs with
    | none =>
      have : xs = [] := listMin_eq_none xs hxs
      subst this
      refine ⟨x, by simp [listMin], by simp, ?_⟩
      intro y hy
      rw [List.mem_singleton] at hy
      exact le_of_eq (by rw [hy])
    | some m =>
      have hne : xs ≠ [] := by
        intro h
        subst h
        simp [listMin] at hxs
      obtain ⟨d, hd, hdm, hdle⟩ := ih hne
      rw [hxs] at hd
      have hdmeq : d = m := (Option.some.inj hd).symm
      subst hdmeq
      refine ⟨min x d, ?_, ?_, ?_⟩
      · show listMin (x :: xs) = some (min x d)
        unfold listMin
        rw [hxs]
      · rcases le_total x d with h | h
        · rw [min_eq_left h]
          simp
        · rw [min_eq_right h]
          exact List.mem_cons_of_mem x hdm
      · intro y hy
        rcases List.mem_cons.1 hy with h | h
        · exact h ▸ min_le_left x d
        · exact le_trans (min_le_right x d) (hdle y h)

lemma listMin_concat_none (l : List ℚ) (x : ℚ) (h : listMin l = none) :
    listMin (l ++ [x]) = some x := by
  rw [listMin_eq_none l h]
  simp [listMin]

lemma listMin_concat_some (l : List ℚ) (x : ℚ) :
    ∀ m, listMin l = some m → listMin (l ++ [x]) = some (min m x) := by
  induction l with
  | nil =>
    intro m h
    simp [listMin] at h
  | cons y ys ih =>
    intro m h
    show listMin (y :: (ys ++ [x])) = _
    unfold listMin
    unfold listMin at h
    cases hys : listMin ys with
    | none =>
      rw [hys] at h
      have hm : y = m := by injection h
      subst hm
      rw [listMin_eq_none ys hys]
      simp [listMin]
    | some m' =>
      rw [hys] at h
      have hm : min y m' = m := by injection h
      rw [ih m' hys]
      rw [← hm, min_assoc]

lemma softFold_eq (table : List (ℚ × ℚ)) (bps : Nat) (sym : ℚ × ℚ) (j : Nat) :
    ∀ n, (List.range n).foldl (softStep table bps sym j) (none, none) =
      (listMin (((List.range n).filter
          (fun idx => ((idx >>> (bps - 1 - j)) &&& 1 = 1 : Bool) = false)).map
         (fun idx => distance_squared sym (table.getD idx (0, 0)))),
       listMin (((List.range n).filter
          (fun idx => ((idx >>> (bps - 1 - j)) &&& 1 = 1 : Bool))).map
         (fun idx => distance_squared sym (table.getD idx (0, 0))))) := by
  intro n
  induction n with
  | zero => rfl
  | succ m ih =>
    rw [List.range_succ, List.foldl_append, ih, List.foldl_cons, List.foldl_nil]
    rw [List.filter_append, List.filter_append, List.map_append, List.map_append]
    by_cases hbit : (m >>> (bps - 1 - j)) &&& 1 = 1
    · have hbit' : m / 2 ^ (bps - 1 - j) % 2 = 1 := by
        rw [← Nat.shiftRight_eq_div_pow, ← Nat.and_one_is_mod]
        exact hbit
      have hf1 : (List.filter (fun idx =>
          ((idx >>> (bps - 1 - j)) &&& 1 = 1 : Bool)) [m]) = [m] := by
        simp [Nat.testBit_to_div_mod, hbit']
      have hf0 : (List.filter (fun idx =>
          ((idx >>> (bps - 1 - j)) &&& 1 = 1 : Bool) = false) [m]) = [] := by
        simp [Nat.testBit_to_div_mod, hbit']
      rw [hf1, hf0, List.map_nil, List.append_nil, List.map_cons, List.map_nil]
      unfold softStep
      rw [if_pos hbit]
      cases hmin : listMin (((List.range m).filter
          (fun idx => ((idx >>> (bps - 1 - j)) &&& 1 = 1 : Bool))).map
         (fun idx => distance_squared sym (table.getD idx (0, 0)))) with
      | none =>
        dsimp only
        rw [listMin_concat_none _ _ hmin]
      | some d1 =>
        dsimp only
        rw [listMin_concat_some _ _ d1 hmin]
        by_cases hlt : distance_squared sym (table.getD m (0, 0)) < d1
        · rw [if_pos hlt, min_eq_right (le_of_lt hlt)]
        · rw [if_neg hlt, min_eq_left (le_of_not_lt hlt)]
    · have hbit' : m / 2 ^ (bps - 1 - j) % 2 = 0 := by
        rw [Nat.and_one_is_mod, Nat.shiftRight_eq_div_pow] at hbit
        omega
      have hf1 : (List.filter (fun idx =>
          ((idx >>> (bps - 1 - j)) &&& 1 = 1 : Bool)) [m]) = [] := by
        simp [Nat.testBit_to_div_mod, hbit']
      have hf0 : (List.filter (fun idx =>
          ((idx >>> (bps - 1 - j)) &&& 1 = 1 : Bool) = false) [m]) = [m] := by
        simp [Nat.testBit_to_div_mod, hbit']
      rw [hf1, hf0, List.map_nil, List.append_nil, List.map_cons, List.map_nil]
      unfold softStep
      rw [if_neg hbit]
      cases hmin : listMin (((List.range m).filter
          (fun idx => ((idx >>> (bps - 1 - j)) &&& 1 = 1 : Bool) = false)).map
         (fun idx => distance_squared sym (table.getD idx (0, 0)))) with
      | none =>
        dsimp only
        rw [listMin_concat_none _ _ hmin]
      | some d0 =>
        dsimp only
        rw [listMin_concat_some _ _ d0 hmin]
        by_cases hlt : distance_squared sym (table.getD m (0, 0)) < d0
        · rw [if_pos hlt, min_eq_right (le_of_lt hlt)]
        · rw [if_neg hlt, min_eq_left (le_of_not_lt hlt)]

lemma softMins_eq (table : List (ℚ × ℚ)) (bps : Nat) (sym : ℚ × ℚ) (j : Nat) :
    softMins table bps sym j =
      (listMin (classDists table bps sym j 0),
       listMin (classDists table bps sym j 1)) := by
  unfold softMins classDists
  rw [softFold_eq]
  have h0 : (List.range table.length).filter
      (fun idx => ((idx >>> (bps - 1 - j)) &&& 1 = 1 : Bool) = false) =
      (List.range table.length).filter
      (fun idx => ((idx >>> (bps - 1 - j)) &&& 1 = 0 : Bool)) := by
    apply List.filter_congr
    intro idx _
    have hx : (idx >>> (bps - 1 - j)) &&& 1 = 0 ∨
        (idx >>> (bps - 1 - j)) &&& 1 = 1 := by
      rw [Nat.and_one_is_mod]
      omega
    rcases hx with h | h <;> simp [h]
  rw [h0]

lemma flatMap_getD (f : (ℚ × ℚ) → List ℚ) (m : Nat) (hf : ∀ a, (f a).length = m)
    (l : List (ℚ × ℚ)) (j : Nat) (hj : j < m) :
    ∀ k, k < l.length →
      (l.flatMap f).getD (k * m + j) 0 = (f (l.getD k (0, 0))).getD j 0 := by
  induction l with
  | nil =>
    intro k hk
    simp at hk
  | cons a rest ih =>
    intro k hk
    rw [List.flatMap_cons]
    cases k with
    | zero =>
      rw [Nat.zero_mul, Nat.zero_add]
      rw [List.getD_append _ _ _ j (by rw [hf a]; exact hj)]
      rfl
    | succ n =>
      have hlen : (f a).length ≤ n.succ * m + j := by
        rw [hf a, Nat.succ_mul]
        omega
      rw [List.getD_append_right _ _ _ _ hlen]
      have harg : n.succ * m + j - (f a).length = n * m + j := by
        rw [hf a, Nat.succ_mul]
        omega
      rw [harg]
      exact ih n (by simpa using hk)

lemma class_ne_4 : ∀ j < 2, ∀ b < 2,
    ((List.range 4).filter
      (fun idx => ((idx >>> (2 - 1 - j)) &&& 1 = b : Bool))) ≠ [] := by
  decide

lemma class_ne_16 : ∀ j < 4, ∀ b < 2,
    ((List.range 16).filter
      (fun idx => ((idx >>> (4 - 1 - j)) &&& 1 = b : Bool))) ≠ [] := by
  decide

lemma class_ne_64 : ∀ j < 6, ∀ b < 2,
    ((List.range 64).filter
      (fun idx => ((idx >>> (6 - 1 - j)) &&& 1 = b : Bool))) ≠ [] := by
  decide

lemma demT4_len (s : ℚ) : (demT_constellation 4 s).length = 4 := by
  rw [demT_four]
  rfl

lemma demT16_len (s : ℚ) : (demT_constellation 16 s).length = 16 := by
  rw [demT16_eq]
  simp

lemma demT64_len (s : ℚ) : (demT_constellation 64 s).length = 64 := by
  rw [demT64_eq]
  simp

lemma c8_core (tb : List (ℚ × ℚ)) (bps : Nat) (sigma : ℚ)
    (symbols : List (ℚ × ℚ))
    (hclass : ∀ j, j < bps → ∀ b, b < 2 →
      ((List.range tb.length).filter
        (fun idx => ((idx >>> (bps - 1 - j)) &&& 1 = b : Bool))) ≠ []) :
    (demodulate_soft tb bps symbols sigma).length = symbols.length * bps ∧
    ∀ k j, k < symbols.length → j < bps →
      ∃ d0 d1,
        d0 ∈ classDists tb bps (symbols.getD k (0, 0)) j 0 ∧
        (∀ x ∈ classDists tb bps (symbols.getD k (0, 0)) j 0, d0 ≤ x) ∧
        d1 ∈ classDists tb bps (symbols.getD k (0, 0)) j 1 ∧
        (∀ x ∈ classDists tb bps (symbols.getD k (0, 0)) j 1, d1 ≤ x) ∧
        (demodulate_soft tb bps symbols sigma).getD (k * bps + j) 0 =
          (d0 - d1) / (2 * (sigma * sigma)) := by
  constructor
  · unfold demodulate_soft
    rw [List.length_flatMap]
    have hmap : symbols.map
        (List.length ∘ fun sym => (List.range bps).map (fun j =>
          match softMins tb bps sym j with
          | (some d0, some d1) => (d0 - d1) / (2 * (sigma * sigma))
          | _ => 0)) = symbols.map (fun _ => bps) := by
      apply List.map_congr_left
      intro a _
      simp [Function.comp]
    rw [hmap, List.map_const', List.sum_replicate, smul_eq_mul]
  · intro k j hk hj
    have hcd0 : classDists tb bps (symbols.getD k (0, 0)) j 0 ≠ [] := by
      unfold classDists
      intro hE
      rw [List.map_eq_nil_iff] at hE
      exact hclass j hj 0 (by omega) hE
    have hcd1 : classDists tb bps (symbols.getD k (0, 0)) j 1 ≠ [] := by
      unfold classDists
      intro hE
      rw [List.map_eq_nil_iff] at hE
      exact hclass j hj 1 (by omega) hE
    obtain ⟨d0, hmin0, hm0, hle0⟩ := listMin_spec _ hcd0
    obtain ⟨d1, hmin1, hm1, hle1⟩ := listMin_spec _ hcd1
    refine ⟨d0, d1, hm0, hle0, hm1, hle1, ?_⟩
    unfold demodulate_soft
    rw [flatMap_getD _ bps (fun a => by simp) symbols j hj k hk]
    rw [getD_map_range bps _ j hj]
    rw [softMins_eq, hmin0, hmin1]

/-- **C8**: for every input symbol sequence and every `sigma`,
`demodulate_soft` (templated demodulator, any scale factor, orders 4/16/64)
emits exactly one LLR per (symbol, bit-position) pair, laid out in the same
order as the hard-decision bit stream (position `k * bitsPerSymbol + j`),
and the value at that position is `(d0 - d1) / (2 * sigma^2)` where `d0`
(resp. `d1`) is the minimum squared Euclidean distance over the
constellation indices whose bit `j` is 0 (resp. 1). -/
theorem c8_demodulate_soft_spec (s sigma : ℚ) (L bps : Nat)
    (hmem : (L, bps) ∈ [(4, 2), (16, 4), (64, 6)]) (symbols : List (ℚ × ℚ)) :
    (demodulate_soft (demT_constellation L s) bps symbols sigma).length =
      symbols.length * bps ∧
    ∀ k j, k < symbols.length → j < bps →
      ∃ d0 d1,
        d0 ∈ classDists (demT_constellation L s) bps (symbols.getD k (0, 0)) j 0 ∧
        (∀ x ∈ classDists (demT_constellation L s) bps
          (symbols.getD k (0, 0)) j 0, d0 ≤ x) ∧
        d1 ∈ classDists (demT_constellation L s) bps (symbols.getD k (0, 0)) j 1 ∧
        (∀ x ∈ classDists (demT_constellation L s) bps
          (symbols.getD k (0, 0)) j 1, d1 ≤ x) ∧
        (demodulate_soft (demT_constellation L s) bps symbols sigma).getD
            (k * bps + j) 0 = (d0 - d1) / (2 * (sigma * sigma)) := by
  have hmem' : (L = 4 ∧ bps = 2) ∨ (L = 16 ∧ bps = 4) ∨ (L = 64 ∧ bps = 6) := by
    simpa [Prod.ext_iff] using hmem
  rcases hmem' with ⟨h1, h2⟩ | ⟨h1, h2⟩ | ⟨h1, h2⟩ <;> subst h1 <;> subst h2
  · refine c8_core _ 2 sigma symbols ?_
    intro j hj b hb
    rw [demT4_len]
    exact class_ne_4 j hj b hb
  · refine c8_core _ 4 sigma symbols ?_
    intro j hj b hb
    rw [demT16_len]
    exact class_ne_16 j hj b hb
  · refine c8_core _ 6 sigma symbols ?_
    intro j hj b hb
    rw [demT64_len]
    exact class_ne_64 j hj b hb

/-- Witness for `c8_demodulate_soft_spec`: templated QPSK demodulator at
scale 1, `sigma = 1`, one symbol `(2, 0)`, bit position 0. -/
theorem c8_demodulate_soft_spec_witness :
    ∃ d0 d1,
      d0 ∈ classDists (demT_constellation 4 1) 2 (([((2 : ℚ), (0 : ℚ))].getD 0 (0, 0))) 0 0 ∧
      (∀ x ∈ classDists (demT_constellation 4 1) 2
        (([((2 : ℚ), (0 : ℚ))].getD 0 (0, 0))) 0 0, d0 ≤ x) ∧
      d1 ∈ classDists (demT_constellation 4 1) 2 (([((2 : ℚ), (0 : ℚ))].getD 0 (0, 0))) 0 1 ∧
      (∀ x ∈ classDists (demT_constellation 4 1) 2
        (([((2 : ℚ), (0 : ℚ))].getD 0 (0, 0))) 0 1, d1 ≤ x) ∧
      (demodulate_soft (demT_constellation 4 1) 2 [((2 : ℚ), (0 : ℚ))] 1).getD
          (0 * 2 + 0) 0 = (d0 - d1) / (2 * (1 * 1)) :=
  (c8_demodulate_soft_spec 1 1 4 2 (by simp) [((2 : ℚ), (0 : ℚ))]).2 0 0
    (by simp) (by omega)

/-! ## C3: Monte-Carlo accumulators under concurrency -/

/-- One trial's atomic contribution to the per-SNR accumulators, from the
loop body of `simulate_mod`: `errors[i] += err; bits[i] += b.size();` with
both counters `std::atomic<uint64_t>`.  An execution of the run is any
interleaving (permutation) of all workers' events; atomicity means every
event's increment is applied exactly once. -/
structure TrialEvent where
  snrIdx : Nat
  errInc : Nat
  bitInc : Nat

/-- Apply one atomic increment event to the accumulator state (a map from
SNR index to the pair (error count, bit count)). -/
def applyEvent (c : Nat → Nat × Nat) (e : TrialEvent) : Nat → Nat × Nat :=
  fun i => if i = e.snrIdx then ((c i).1 + e.errInc, (c i).2 + e.bitInc) else c i

/-- Run a schedule (a global interleaving of all workers' increments) from
the zeroed accumulators. -/
def runSchedule (sched : List TrialEvent) : Nat → Nat × Nat :=
  sched.foldl applyEvent (fun _ => (0, 0))

/-- The events one worker generates in `simulate_mod`: the worker sweeps
the entire SNR list (`S` points) and performs `I` iterations per point;
every trial adds the trial's error count and `bitsPerWorker = B` bits
(`b.size()`).  `err w i t` is the error count of worker `w`'s trial `t` at
SNR point `i`. -/
def workerEvents (err : Nat → Nat → Nat → Nat) (B S I w : Nat) :
    List TrialEvent :=
  (List.range S).flatMap (fun i =>
    (List.range I).map (fun t => ⟨i, err w i t, B⟩))

/-- All events of one `simulate_mod` run with `W` workers: every worker
replicates the full SNR sweep. -/
def simulateEvents (err : Nat → Nat → Nat → Nat) (B S I W : Nat) :
    List TrialEvent :=
  (List.range W).flatMap (fun w => workerEvents err B S I w)

lemma runSchedule_characterization (sched : List TrialEvent) :
    ∀ (init : Nat → Nat × Nat) (i : Nat),
      (sched.foldl applyEvent init) i =
        ((init i).1 +
           ((sched.filter (fun e => (e.snrIdx = i : Bool))).map TrialEvent.errInc).sum,
         (init i).2 +
           ((sched.filter (fun e => (e.snrIdx = i : Bool))).map TrialEvent.bitInc).sum) := by
  induction sched with
  | nil =>
    intro init i
    simp
  | cons e rest ih =>
    intro init i
    rw [List.foldl_cons, ih]
    rcases eq_or_ne e.snrIdx i with h | h
    · rw [List.filter_cons_of_pos (by simp [h])]
      rw [List.map_cons, List.sum_cons, List.map_cons, List.sum_cons]
      unfold applyEvent
      rw [if_pos h.symm]
      dsimp only
      rw [Prod.mk.injEq]
      omega
    · rw [List.filter_cons_of_neg (by simp [h])]
      unfold applyEvent
      rw [if_neg (fun hc => h hc.symm)]

lemma filter_flatMap {α β : Type} (l : List α) (f : α → List β) (p : β → Bool) :
    (l.flatMap f).filter p = l.flatMap (fun a => (f a).filter p) := by
  induction l with
  | nil => rfl
  | cons a rest ih =>
    rw [List.flatMap_cons, List.flatMap_cons, List.filter_append, ih]

lemma flatMap_single {β : Type} (S i : Nat) (hi : i < S) (g : Nat → List β)
    (hg : ∀ i' < S, i' ≠ i → g i' = []) :
    (List.range S).flatMap g = g i := by
  induction S with
  | zero => omega
  | succ m ih =>
    rw [List.range_succ, List.flatMap_append, List.flatMap_cons,
      List.flatMap_nil, List.append_nil]
    rcases Nat.lt_succ_iff_lt_or_eq.1 hi with h | h
    · rw [ih h (fun i' hi' hne => hg i' (by omega) hne),
        hg m (by omega) (by omega), List.append_nil]
    · subst h
      have hnil : (List.range i).flatMap g = [] := by
        apply List.flatMap_eq_nil_iff.2
        intro i' hi'
        rw [List.mem_range] at hi'
        exact hg i' (by omega) (by omega)
      rw [hnil, List.nil_append]

lemma filter_workerEvents (err : Nat → Nat → Nat → Nat) (B S I w i : Nat)
    (hi : i < S) :
    (workerEvents err B S I w).filter (fun e => (e.snrIdx = i : Bool)) =
      (List.range I).map (fun t => ⟨i, err w i t, B⟩) := by
  unfold workerEvents
  rw [filter_flatMap]
  rw [flatMap_single S i hi _ ?side]
  case side =>
    intro i' hi' hne
    apply List.filter_eq_nil_iff.2
    intro e he
    obtain ⟨t, _, ht⟩ := List.mem_map.1 he
    subst ht
    simp [hne]
  apply List.filter_eq_self.2
  intro e he
  obtain ⟨t, _, ht⟩ := List.mem_map.1 he
  subst ht
  simp

lemma filter_simulateEvents (err : Nat → Nat → Nat → Nat) (B S I W i : Nat)
    (hi : i < S) :
    (simulateEvents err B S I W).filter (fun e => (e.snrIdx = i : Bool)) =
      (List.range W).flatMap (fun w =>
        (List.range I).map (fun t => ⟨i, err w i t, B⟩)) := by
  unfold simulateEvents
  rw [filter_flatMap]
  congr 1
  funext w
  exact filter_workerEvents err B S I w i hi

lemma bits_total (err : Nat → Nat → Nat → Nat) (B I i : Nat) : ∀ W,
    (((List.range W).flatMap (fun w =>
        (List.range I).map (fun t => (⟨i, err w i t, B⟩ : TrialEvent)))).map
      TrialEvent.bitInc).sum = W * (I * B) := by
  intro W
  induction W with
  | zero => simp
  | succ m ih =>
    rw [List.range_succ, List.flatMap_append, List.map_append, List.sum_append, ih]
    rw [List.flatMap_cons, List.flatMap_nil, List.append_nil, List.map_map]
    have hconst : (List.range I).map
        (TrialEvent.bitInc ∘ fun t => (⟨i, err m i t, B⟩ : TrialEvent)) =
        (List.range I).map (fun _ => B) := by
      apply List.map_congr_left
      intro t _
      rfl
    rw [hconst, List.map_const', List.sum_replicate, smul_eq_mul,
      List.length_range]
    ring

lemma errs_total (err : Nat → Nat → Nat → Nat) (B I i : Nat) : ∀ W,
    (((List.range W).flatMap (fun w =>
        (List.range I).map (fun t => (⟨i, err w i t, B⟩ : TrialEvent)))).map
      TrialEvent.errInc).sum =
    ((List.range W).map (fun w =>
      ((List.range I).map (fun t => err w i t)).sum)).sum := by
  intro W
  induction W with
  | zero => rfl
  | succ m ih =>
    rw [List.range_succ, List.flatMap_append, List.map_append, List.map_append,
      List.sum_append, List.sum_append, ih]
    congr 1
    rw [List.flatMap_cons, List.flatMap_nil, List.append_nil, List.map_map]
    simp only [List.map_cons, List.map_nil, List.sum_cons, List.sum_nil,
      Nat.add_zero]
    congr 1

/-- **C3**: after all workers are joined, for any interleaving (`sched` is
an arbitrary permutation of the run's atomic increment events, so no update
is lost or reordered in a way that matters), the accumulated bit count at
every SNR point equals `numWorkers * iterationsPerSnr * bitsPerWorker`, the
accumulated error count is the sum of all workers' per-trial error counts
(independent of the interleaving and of how workers are scheduled), and
when trial outcomes do not depend on the worker (deterministic outcomes)
the error total is exactly `numWorkers` times one worker's total. -/
theorem c3_accumulator_totals (err : Nat → Nat → Nat → Nat) (B S I W : Nat)
    (sched : List TrialEvent)
    (hperm : sched.Perm (simulateEvents err B S I W)) (i : Nat) (hi : i < S) :
    (runSchedule sched i).2 = W * (I * B) ∧
    (runSchedule sched i).1 =
      ((List.range W).map (fun w =>
        ((List.range I).map (fun t => err w i t)).sum)).sum ∧
    ((∀ w t, err w i t = err 0 i t) →
      (runSchedule sched i).1 = W * ((List.range I).map (fun t => err 0 i t)).sum) := by
  have hchar := runSchedule_characterization sched (fun _ => (0, 0)) i
  unfold runSchedule
  rw [hchar]
  dsimp only
  rw [Nat.zero_add, Nat.zero_add]
  have hfe : (sched.filter (fun e => (e.snrIdx = i : Bool))).Perm
      ((simulateEvents err B S I W).filter (fun e => (e.snrIdx = i : Bool))) :=
    hperm.filter _
  have hsum_err : ((sched.filter (fun e => (e.snrIdx = i : Bool))).map
      TrialEvent.errInc).sum =
      (((simulateEvents err B S I W).filter (fun e => (e.snrIdx = i : Bool))).map
        TrialEvent.errInc).sum :=
    (hfe.map _).sum_eq
  have hsum_bit : ((sched.filter (fun e => (e.snrIdx = i : Bool))).map
      TrialEvent.bitInc).sum =
      (((simulateEvents err B S I W).filter (fun e => (e.snrIdx = i : Bool))).map
        TrialEvent.bitInc).sum :=
    (hfe.map _).sum_eq
  rw [hsum_err, hsum_bit, filter_simulateEvents err B S I W i hi]
  refine ⟨bits_total err B I i W, errs_total err B I i W, ?_⟩
  intro hind
  rw [errs_total err B I i W]
  have hmap : (List.range W).map (fun w => ((List.range I).map (fun t => err w i t)).sum) =
      (List.range W).map (fun _ => ((List.range I).map (fun t => err 0 i t)).sum) := by
    apply List.map_congr_left
    intro w _
    congr 1
    apply List.map_congr_left
    intro t _
    exact hind w t
  rw [hmap, List.map_const', List.sum_replicate, smul_eq_mul, List.length_range]

/-- Witness for `c3_accumulator_totals`: two workers, two SNR points, two
iterations, three bits per trial, worker-independent outcomes. -/
theorem c3_accumulator_totals_witness :
    (runSchedule (simulateEvents (fun _ i t => i + t) 3 2 2 2) 0).2 = 2 * (2 * 3) ∧
    (runSchedule (simulateEvents (fun _ i t => i + t) 3 2 2 2) 0).1 =
      ((List.range 2).map (fun w =>
        ((List.range 2).map (fun t => ((fun _ i t => i + t) : Nat → Nat → Nat → Nat) w 0 t)).sum)).sum ∧
    ((∀ w t, ((fun _ i t => i + t) : Nat → Nat → Nat → Nat) w 0 t =
        ((fun _ i t => i + t) : Nat → Nat → Nat → Nat) 0 0 t) →
      (runSchedule (simulateEvents (fun _ i t => i + t) 3 2 2 2) 0).1 =
        2 * ((List.range 2).map (fun t => ((fun _ i t => i + t) : Nat → Nat → Nat → Nat) 0 0 t)).sum) :=
  c3_accumulator_totals (fun _ i t => i + t) 3 2 2 2 _ (List.Perm.refl _) 0 (by omega)

/-! ## C6 and C7: the AWGN noise adder -/

/-- Mean signal power of a symbol batch, from `addNoiseStandard`:
`signal_power += re*re + im*im;` then `signal_power /= symbols.size();`. -/
noncomputable def signalPower (symbols : List (ℝ × ℝ)) : ℝ :=
  (symbols.map (fun p => p.1 * p.1 + p.2 * p.2)).sum / symbols.length

/-- Per-component noise standard deviation, from `addNoiseStandard`:
`snr_linear = pow(10.0, snr_db / 10.0); noise_power = signal_power /
snr_linear; sigma = sqrt(noise_power / 2.0)`. -/
noncomputable def noiseSigma (snr_db : ℝ) (symbols : List (ℝ × ℝ)) : ℝ :=
  Real.sqrt (signalPower symbols / (10 : ℝ) ^ (snr_db / 10) / 2)

/-- `NoiseAdder<T>::addNoiseStandard`: empty input returns an empty batch;
otherwise every symbol receives per-component additive noise drawn from
`normal_distribution(0, sigma)`.  The engine's standard-normal draw stream
is abstracted as `gauss` (draw `2*i` for the real part, `2*i + 1` for the
imaginary part, in the order the loop makes them), scaled by `sigma`. -/
noncomputable def addNoiseStandard (snr_db : ℝ) (gauss : Nat → ℝ)
    (symbols : List (ℝ × ℝ)) : List (ℝ × ℝ) :=
  if symbols.isEmpty then []
  else (List.range symbols.length).map (fun i =>
    ((symbols.getD i (0, 0)).1 + noiseSigma snr_db symbols * gauss (2 * i),
     (symbols.getD i (0, 0)).2 + noiseSigma snr_db symbols * gauss (2 * i + 1)))

/-- **C6**: `addNoise` (scalar path) maps the empty batch to the empty
batch (not an error); a non-empty batch yields exactly one output symbol
per input symbol, each equal to the input plus per-component noise whose
standard deviation is `sigma = sqrt(N/2)` with `N = P / gamma`,
`P = mean(re^2 + im^2)` over the batch and `gamma = 10^(snrDb/10)` —
spelled out in full in the conclusion. -/
theorem c6_addNoise_spec (snr_db : ℝ) (gauss : Nat → ℝ)
    (symbols : List (ℝ × ℝ)) :
    addNoiseStandard snr_db gauss [] = [] ∧
    (addNoiseStandard snr_db gauss symbols).length = symbols.length ∧
    ∀ i, i < symbols.length →
      (addNoiseStandard snr_db gauss symbols).getD i (0, 0) =
        ((symbols.getD i (0, 0)).1 +
           Real.sqrt ((symbols.map (fun p => p.1 * p.1 + p.2 * p.2)).sum /
             symbols.length / (10 : ℝ) ^ (snr_db / 10) / 2) * gauss (2 * i),
         (symbols.getD i (0, 0)).2 +
           Real.sqrt ((symbols.map (fun p => p.1 * p.1 + p.2 * p.2)).sum /
             symbols.length / (10 : ℝ) ^ (snr_db / 10) / 2) * gauss (2 * i + 1)) := by
  refine ⟨rfl, ?_, ?_⟩
  · unfold addNoiseStandard
    by_cases h : symbols.isEmpty
    · rw [if_pos h, List.isEmpty_iff.1 h]
    · rw [if_neg h]
      simp
  · intro i hi
    unfold addNoiseStandard
    have hne : ¬symbols.isEmpty := by
      rw [List.isEmpty_iff]
      intro h
      subst h
      simp at hi
    rw [if_neg hne, getD_map_range symbols.length _ i hi]
    rfl

/-- Witness for `c6_addNoise_spec`: one symbol `(3, 4)`, unit draws,
`snrDb = 0`. -/
theorem c6_addNoise_spec_witness :
    addNoiseStandard 0 (fun _ => (1 : ℝ)) [] = [] ∧
    (addNoiseStandard 0 (fun _ => (1 : ℝ)) [((3 : ℝ), (4 : ℝ))]).getD 0 (0, 0) =
      ((([((3 : ℝ), (4 : ℝ))] : List (ℝ × ℝ)).getD 0 (0, 0)).1 +
         Real.sqrt ((([((3 : ℝ), (4 : ℝ))] : List (ℝ × ℝ)).map
             (fun p => p.1 * p.1 + p.2 * p.2)).sum /
           (([((3 : ℝ), (4 : ℝ))] : List (ℝ × ℝ)).length : ℝ) /
           (10 : ℝ) ^ ((0 : ℝ) / 10) / 2) * (fun _ => (1 : ℝ)) (2 * 0),
       (([((3 : ℝ), (4 : ℝ))] : List (ℝ × ℝ)).getD 0 (0, 0)).2 +
         Real.sqrt ((([((3 : ℝ), (4 : ℝ))] : List (ℝ × ℝ)).map
             (fun p => p.1 * p.1 + p.2 * p.2)).sum /
           (([((3 : ℝ), (4 : ℝ))] : List (ℝ × ℝ)).length : ℝ) /
           (10 : ℝ) ^ ((0 : ℝ) / 10) / 2) * (fun _ => (1 : ℝ)) (2 * 0 + 1)) :=
  ⟨(c6_addNoise_spec 0 (fun _ => (1 : ℝ)) [((3 : ℝ), (4 : ℝ))]).1,
   (c6_addNoise_spec 0 (fun _ => (1 : ℝ)) [((3 : ℝ), (4 : ℝ))]).2.2 0 (by simp)⟩

/-- The templated `NoiseAdder<T>` (non-SIMD path): its only state is the
SNR in dB (plus an allocator); it holds no random-engine member. -/
structure NoiseAdderT where
  snr_db : ℝ

/-- First output of `std::mt19937{}()`: a default-constructed `std::mt19937`
has the standard-mandated default seed 5489, and its first output is the
fixed value 3499211612, so the seed expression in `addNoiseStandard` is a
constant — re-evaluated, with the same value, on every call. -/
def mt19937DefaultFirstOutput : Nat := 3499211612

/-- The templated `NoiseAdder<T>::addNoiseStandard` call:
`std::default_random_engine rng(std::mt19937{}());` constructs a fresh
engine from the constant seed on every call, then draws per-component noise
from it.  `engineNormals seed k` abstracts the `k`-th standard-normal draw
of an engine seeded with `seed` (the C++ engine and distribution are
deterministic functions of the seed). -/
noncomputable def NoiseAdderT.addNoise (engineNormals : Nat → Nat → ℝ)
    (na : NoiseAdderT) (symbols : List (ℝ × ℝ)) : List (ℝ × ℝ) :=
  addNoiseStandard na.snr_db (engineNormals mt19937DefaultFirstOutput) symbols

/-- **C7**: the templated non-SIMD `addNoise` path is a deterministic
function of its inputs: the engine is freshly seeded from the constant
`std::mt19937{}()` on every call, and the instance carries no engine state,
so any two calls with the same symbol batch and the same `snr_db` — on any
two instances — produce identical outputs, and every call equals the pure
function of `(snr_db, symbols)` with the constant seed. -/
theorem c7_noise_deterministic (engineNormals : Nat → Nat → ℝ)
    (na1 na2 : NoiseAdderT) (symbols : List (ℝ × ℝ))
    (hsnr : na1.snr_db = na2.snr_db) :
    na1.addNoise engineNormals symbols = na2.addNoise engineNormals symbols ∧
    na1.addNoise engineNormals symbols =
      addNoiseStandard na1.snr_db (engineNormals mt19937DefaultFirstOutput)
        symbols := by
  unfold NoiseAdderT.addNoise
  rw [hsnr]
  exact ⟨rfl, rfl⟩

/-- Witness for `c7_noise_deterministic`: two distinct instances with the
same SNR. -/
theorem c7_noise_deterministic_witness :
    NoiseAdderT.addNoise (fun _ _ => 0) ⟨5⟩ [((1 : ℝ), (0 : ℝ))] =
      NoiseAdderT.addNoise (fun _ _ => 0) ⟨5⟩ [((1 : ℝ), (0 : ℝ))] :=
  (c7_noise_deterministic (fun _ _ => 0) ⟨5⟩ ⟨5⟩ [((1 : ℝ), (0 : ℝ))] rfl).1
